import Mathlib

/-!
Verification of the Succinct-Bit-Vector repository (Go).

The repository contains several draft implementations of the same
succinct bit-vector design:

* `src/unnamed/part_001` (package `bitvector`): a complete draft with a
  64-bit-block rank index and select via binary search.  Embedded below in
  namespace `Simple`.  `src/unnamed/part_002` is the same logic over `uint`.
* `src/bitVector.go` (package `bitVector`): the same 64-bit-block rank
  index, no select; its `Rank0` differs (it returns the `Rank1` value).
  Embedded below in namespace `CapV`.
* `src/bitvector.go` (package `bitvector`): a two-level variant whose rank
  index uses blocks of `log(size)^2` bits.  Embedded below in namespace
  `Log2`.

Machine integers: Go `uint64` values are modelled as `Nat` with explicit
reduction `w64 x = x % 2^64` exactly where Go wraps (left shifts and the
multiplication in `popcount`); right shifts and masks cannot overflow.
Go `int` index/count arithmetic in the embedded code only ever holds small
nonnegative values, and is modelled as `Nat`.  Go slices are modelled as
`List Nat` where plain indexing `s[i]` becomes `List.getD i 0`; for the
memory-safety claim a second, `Option`-valued variant uses `List.get?`
(`l[i]?`) so that an out-of-bounds access (a Go panic) is observable as
`none`.  Fallible Go functions returning `(value, error)` pairs become
`Except Err _`.
-/

/-! ### Shared constants and popcount (identical in every draft) -/

/-- Reduction modulo 2^64: the wrap-around of Go `uint64` arithmetic. -/
def w64 (x : Nat) : Nat := x % 18446744073709551616

def maskFF : Nat := 0xffffffffffffffff

def mask55 : Nat := 0x5555555555555555

def mask33 : Nat := 0x3333333333333333

def mask0F : Nat := 0x0f0f0f0f0f0f0f0f

def mask01 : Nat := 0x0101010101010101

/-- Go unary complement `^x` on `uint64`: xor with the all-ones word. -/
def comp64 (x : Nat) : Nat := maskFF ^^^ x

/-- The parallel bit-count over one 64-bit word (`popcount` in every draft).
The pairwise additions cannot wrap, but the final multiplication by
`mask01` does, hence the `w64`. -/
def popcount (x : Nat) : Nat :=
  let x1 := w64 ((x &&& mask55) + ((x >>> 1) &&& mask55))
  let x2 := w64 ((x1 &&& mask33) + ((x1 >>> 2) &&& mask33))
  let x3 := w64 (x2 + (x2 >>> 4)) &&& mask0F
  (w64 (x3 * mask01) >>> 56) &&& 0x7f

/-! ### Reference (specification-side) definitions

These follow the specification's words ("number of set bits", "linear scan
count"), not the code; the theorems compare the embedded code against them. -/

/-- Number of set bits of `w` among bit positions `[0, k)`, by linear scan. -/
def bitCount (w : Nat) : Nat → Nat
  | 0 => 0
  | k + 1 => bitCount w k + (if w.testBit k then 1 else 0)

/-- The bit at position `j` of a word-packed vector (LSB-first packing,
64-bit words), as in the data-model section of the specification. -/
def bitAt (ws : List Nat) (j : Nat) : Bool :=
  Nat.testBit (ws.getD (j / 64) 0) (j % 64)

/-- Linear-scan count of positions `j < i` holding bit value `x`. -/
def scanCount (ws : List Nat) (x : Bool) : Nat → Nat
  | 0 => 0
  | i + 1 => scanCount ws x i + (if bitAt ws i = x then 1 else 0)

/-- Cyclic left rotation of a 64-bit word by `r` places: the top
`64 - r % 64` bits of `x` move up by `r % 64` and the remaining top bits
wrap around to the bottom.  (Arithmetic form of `x <<< s ||| x >>> (64-s)`
truncated to 64 bits, for `s = r % 64`.) -/
def rotl64 (x r : Nat) : Nat :=
  (x % 2 ^ (64 - r % 64)) * 2 ^ (r % 64) + x / 2 ^ (64 - r % 64)

/-! ### Errors and the builder (textually identical in every draft) -/

/-- The two error values: `ErrorOutOfRange` and `ErrorNotExist`. -/
inductive Err where
  | outOfRange
  | notExist
deriving DecidableEq

/-- The `Builder`: size plus the packed word storage. -/
structure Builder where
  size : Nat
  v : List Nat
deriving DecidableEq

/-- Go `NewBuilder(size)`: `size/64 + 1` zero words. -/
def NewBuilder (size : Nat) : Builder :=
  ⟨size, List.replicate (size / 64 + 1) 0⟩

/-- Go `Builder.Len`. -/
def Builder.Len (b : Builder) : Nat := b.size

/-- Go `Builder.Set(i, v)`: `v[i/64] |= 1 << (i%64)` or `v[i/64] &^= 1 << (i%64)`. -/
def Builder.Set (b : Builder) (i : Nat) (val : Bool) : Builder :=
  if val then { b with v := b.v.set (i / 64) (b.v.getD (i / 64) 0 ||| w64 (1 <<< (i % 64))) }
  else { b with v := b.v.set (i / 64) (b.v.getD (i / 64) 0 &&& comp64 (w64 (1 <<< (i % 64)))) }

/-- Go `Builder.Set1(i)`. -/
def Builder.Set1 (b : Builder) (i : Nat) : Builder := b.Set i true

/-- Go `Builder.Set0(i)`. -/
def Builder.Set0 (b : Builder) (i : Nat) : Builder := b.Set i false

/-- Go `Builder.Get(i)`: literally `(b.v[i/64] << uint(i%64) & 1) == 1`
(note: this is the source's left shift, not a right shift). -/
def Builder.Get (b : Builder) (i : Nat) : Bool :=
  (w64 (b.v.getD (i / 64) 0 <<< (i % 64)) &&& 1) == 1

/-! ### Namespace `Simple`: src/unnamed/part_001 (64-bit-block index, with select) -/

namespace Simple

structure BitVector where
  size : Nat
  rank : List Nat
  v : List Nat
deriving DecidableEq

def Len (b : BitVector) : Nat := b.size

/-- Go `Get(i)`: rejects `i > size`, then `((b.v[i/64] >> uint(i%64)) & 1) == 1`. -/
def Get (b : BitVector) (i : Nat) : Except Err Bool :=
  if i > b.size then .error .outOfRange
  else .ok (((b.v.getD (i / 64) 0 >>> (i % 64)) &&& 1) == 1)

/-- Go `Rank1(i)`: rejects `i > size`, then
`b.rank[i/64] + popcount(b.v[i/64] & ^(maskFF << offset))` with `offset = i % 64`. -/
def Rank1 (b : BitVector) (i : Nat) : Except Err Nat :=
  if i > b.size then .error .outOfRange
  else .ok (b.rank.getD (i / 64) 0 +
    popcount (b.v.getD (i / 64) 0 &&& comp64 (w64 (maskFF <<< (i % 64)))))

/-- Go `Rank0(i)`: propagates the `Rank1` error, otherwise `i - val`. -/
def Rank0 (b : BitVector) (i : Nat) : Except Err Nat :=
  match Rank1 b i with
  | .error e => .error e
  | .ok val => .ok (i - val)

/-- Go `Rank(i, x)`: dispatch on the requested bit value. -/
def Rank (b : BitVector) (i : Nat) (x : Bool) : Except Err Nat :=
  if x then Rank1 b i else Rank0 b i

/-- Go `v, _ := b.Rank1(mid)`: the value half of the pair; the drafts return
value 0 together with any error. -/
def orZero : Except Err Nat → Nat
  | .ok v => v
  | .error _ => 0

/-- The loop of `binarySearch`: while `high - low > 1`, move `high` or `low`
to `mid = (high + low) / 2` depending on `rank(mid) > t`; returns the final
`high`. -/
def searchLoop (b : BitVector) (t : Nat) (x : Bool) (low high : Nat) : Nat :=
  if high - low > 1 then
    if orZero (if x then Rank1 b ((high + low) / 2) else Rank0 b ((high + low) / 2)) > t then
      searchLoop b t x low ((high + low) / 2)
    else
      searchLoop b t x ((high + low) / 2) high
  else high
termination_by high - low
decreasing_by all_goals omega

/-- Go `binarySearch(t, x)`: fail with `NotExist` when `t > Rank(size, x)`,
otherwise run the loop from `low = 0, high = size + 1` and return `high - 1`. -/
def binarySearch (b : BitVector) (t : Nat) (x : Bool) : Except Err Nat :=
  let total := orZero (if x then Rank1 b b.size else Rank0 b b.size)
  if t > total then .error .notExist
  else .ok (searchLoop b t x 0 (b.size + 1) - 1)

def Select1 (b : BitVector) (i : Nat) : Except Err Nat := binarySearch b i true

def Select0 (b : BitVector) (i : Nat) : Except Err Nat := binarySearch b i false

def Select (b : BitVector) (i : Nat) (x : Bool) : Except Err Nat :=
  if x then Select1 b i else Select0 b i

/-- The rank table built by `Build`: entry `k` is the count accumulated
before word `k` (`rank[i] = count; count += popcount(x)`). -/
def ranksFrom (count : Nat) : List Nat → List Nat
  | [] => []
  | w :: ws => count :: ranksFrom (count + popcount w) ws

/-- Go `Build()`: per-word prefix popcounts, sharing the builder's storage. -/
def Build (b : Builder) : BitVector :=
  ⟨b.size, ranksFrom 0 b.v, b.v⟩

end Simple

/-! ### Namespace `CapV`: src/bitVector.go (64-bit-block index, no select) -/

namespace CapV

structure BitVector where
  size : Nat
  rank : List Nat
  v : List Nat
deriving DecidableEq

def Len (b : BitVector) : Nat := b.size

/-- Go `Get(i)`: identical to the `Simple` draft. -/
def Get (b : BitVector) (i : Nat) : Except Err Bool :=
  if i > b.size then .error .outOfRange
  else .ok (((b.v.getD (i / 64) 0 >>> (i % 64)) &&& 1) == 1)

/-- Go `Rank1(i)`: identical to the `Simple` draft. -/
def Rank1 (b : BitVector) (i : Nat) : Except Err Nat :=
  if i > b.size then .error .outOfRange
  else .ok (b.rank.getD (i / 64) 0 +
    popcount (b.v.getD (i / 64) 0 &&& comp64 (w64 (maskFF <<< (i % 64)))))

/-- Go `Rank0(i)` in src/bitVector.go: propagates the `Rank1` error, but then
returns `val` itself (the source lacks the `i - val`). -/
def Rank0 (b : BitVector) (i : Nat) : Except Err Nat :=
  match Rank1 b i with
  | .error e => .error e
  | .ok val => .ok val

/-- Go `Rank(i, x)`: dispatch on the requested bit value. -/
def Rank (b : BitVector) (i : Nat) (x : Bool) : Except Err Nat :=
  if x then Rank1 b i else Rank0 b i

/-- Go `Build()`: identical to the `Simple` draft. -/
def Build (b : Builder) : BitVector :=
  ⟨b.size, Simple.ranksFrom 0 b.v, b.v⟩

end CapV

/-! ### Namespace `Log2`: src/bitvector.go (log²-bit-block index, with select) -/

namespace Log2

structure BitVector where
  size : Nat
  log : Nat
  logSquared : Nat
  rank : List Nat
  v : List Nat
deriving DecidableEq

def Len (b : BitVector) : Nat := b.size

def Log (b : BitVector) : Nat := b.log

/-- Go `Get(i)`: rejects `i > size`, then `((b.v[i/64] >> uint(i%64)) & 1) == 1`. -/
def Get (b : BitVector) (i : Nat) : Except Err Bool :=
  if i > b.size then .error .outOfRange
  else .ok (((b.v.getD (i / 64) 0 >>> (i % 64)) &&& 1) == 1)

/-- The interior-word loop shared by `Rank1` and `Build`:
`for ; begin+64 < i; begin += 64 { ret += popcount(v[begin/64]) }`;
returns the final `(ret, begin)`. -/
def rankLoop (v : List Nat) (i : Nat) (ret beg : Nat) : Nat × Nat :=
  if beg + 64 < i then rankLoop v i (ret + popcount (v.getD (beg / 64) 0)) (beg + 64)
  else (ret, beg)
termination_by i - beg

/-- The body of `Rank1` after the bounds check, for `begin = i/lsq*lsq` and
`ret = rank[i/lsq]`: either the whole residual range `[begin, i)` lies in
one word (first branch), or a partial leading word, whole interior words
and a partial trailing word are counted. -/
def rank1Val (b : BitVector) (i : Nat) : Nat :=
  let ret := b.rank.getD (i / b.logSquared) 0
  let beg := i / b.logSquared * b.logSquared
  if (beg / 64) * 64 ≤ beg ∧ i ≤ (beg / 64 + 1) * 64 then
    let x := b.v.getD (beg / 64) 0
    let x := x &&& w64 (maskFF <<< (beg - beg / 64 * 64))
    let x := x &&& (maskFF >>> ((beg / 64 + 1) * 64 - i))
    ret + popcount x
  else
    let p :=
      if (beg / 64 + 1) * 64 - beg > 0 then
        let offset := (beg / 64 + 1) * 64 - beg
        (ret + popcount (b.v.getD (beg / 64) 0 &&& comp64 (maskFF >>> (offset % 64))), beg + offset)
      else (ret, beg)
    let q := rankLoop b.v i p.1 p.2
    q.1 + popcount (b.v.getD (q.2 / 64) 0 &&& comp64 (w64 (maskFF <<< (i % 64))))

/-- Go `Rank1(i)`: rejects `i > size`, then the block-indexed count. -/
def Rank1 (b : BitVector) (i : Nat) : Except Err Nat :=
  if i > b.size then .error .outOfRange
  else .ok (rank1Val b i)

/-- Go `Rank0(i)`: propagates the `Rank1` error, otherwise `i - val`. -/
def Rank0 (b : BitVector) (i : Nat) : Except Err Nat :=
  match Rank1 b i with
  | .error e => .error e
  | .ok val => .ok (i - val)

/-- Go `Rank(i, x)`: dispatch on the requested bit value. -/
def Rank (b : BitVector) (i : Nat) (x : Bool) : Except Err Nat :=
  if x then Rank1 b i else Rank0 b i

/-- Go `v, _ := b.Rank1(mid)`: the value half of the pair. -/
def orZero : Except Err Nat → Nat
  | .ok v => v
  | .error _ => 0

/-- The loop of `binarySearch` (same protocol as in the `Simple` draft). -/
def searchLoop (b : BitVector) (t : Nat) (x : Bool) (low high : Nat) : Nat :=
  if high - low > 1 then
    if orZero (if x then Rank1 b ((high + low) / 2) else Rank0 b ((high + low) / 2)) > t then
      searchLoop b t x low ((high + low) / 2)
    else
      searchLoop b t x ((high + low) / 2) high
  else high
termination_by high - low
decreasing_by all_goals omega

/-- Go `binarySearch(t, x)`: fail with `NotExist` when `t > Rank(size, x)`,
otherwise search and return `high - 1`. -/
def binarySearch (b : BitVector) (t : Nat) (x : Bool) : Except Err Nat :=
  let total := orZero (if x then Rank1 b b.size else Rank0 b b.size)
  if t > total then .error .notExist
  else .ok (searchLoop b t x 0 (b.size + 1) - 1)

def Select1 (b : BitVector) (i : Nat) : Except Err Nat := binarySearch b i true

def Select0 (b : BitVector) (i : Nat) : Except Err Nat := binarySearch b i false

def Select (b : BitVector) (i : Nat) (x : Bool) : Except Err Nat :=
  if x then Select1 b i else Select0 b i

/-- The `log` loop of `Build`: `log := 1; for 1<<log <= size { log++ }`. -/
def buildLogLoop (size l : Nat) : Nat :=
  if 1 <<< l ≤ size then buildLogLoop size (l + 1) else l
termination_by size - l
decreasing_by
  have : l < 1 <<< l := by
    rw [Nat.one_shiftLeft]; exact Nat.lt_two_pow l
  omega

/-- The per-block count added by one iteration of the `Build` loop for the
block `[beg0, end0)` (textually the same branch structure as `rank1Val`,
with `end0` in place of `i`). -/
def blockCount (v : List Nat) (beg0 end0 : Nat) : Nat :=
  if (beg0 / 64) * 64 ≤ beg0 ∧ end0 ≤ (beg0 / 64 + 1) * 64 then
    let x := v.getD (beg0 / 64) 0
    let x := x &&& w64 (maskFF <<< (beg0 - beg0 / 64 * 64))
    let x := x &&& (maskFF >>> ((beg0 / 64 + 1) * 64 - end0))
    popcount x
  else
    let p :=
      if (beg0 / 64 + 1) * 64 - beg0 > 0 then
        let offset := (beg0 / 64 + 1) * 64 - beg0
        (popcount (v.getD (beg0 / 64) 0 &&& comp64 (maskFF >>> (offset % 64))), beg0 + offset)
      else (0, beg0)
    let q := rankLoop v end0 p.1 p.2
    q.1 + popcount (v.getD (q.2 / 64) 0 &&& comp64 (w64 (maskFF <<< (end0 % 64))))

/-- The rank-table loop of `Build`: `rank[i] = count`, and for every block
except the last, `count` grows by that block's count. -/
def ranksLoop (v : List Nat) (lsq n i count : Nat) : List Nat :=
  if i < n then
    if i = n - 1 then count :: ranksLoop v lsq n (i + 1) count
    else count :: ranksLoop v lsq n (i + 1) (count + blockCount v (i * lsq) ((i + 1) * lsq))
  else []
termination_by n - i

/-- Go `Build()`: computes `log`, the block size `log*log`, and the rank table
of length `size/(log*log) + 1`.  (The debug `fmt.Print` of the source has no
semantic effect and is not modelled.) -/
def Build (b : Builder) : BitVector :=
  let log := buildLogLoop b.size 1
  let lsq := log * log
  ⟨b.size, log, lsq, ranksLoop b.v lsq (b.size / lsq + 1) 0 0, b.v⟩

/-! Checked (`Option`-valued) variants of `Get` and `Rank1`: the same
computations, with every slice access `s[idx]` guarded by an explicit
`idx < length` test.  The result is `none` exactly when the Go original
would touch an out-of-bounds index (a panic); otherwise it is `some` of
the unchecked result. -/

/-- The `Get` computation with checked slice accesses. -/
def GetChk (b : BitVector) (i : Nat) : Option (Except Err Bool) :=
  if i > b.size then some (.error .outOfRange)
  else if i / 64 < b.v.length then
    some (.ok (((b.v.getD (i / 64) 0 >>> (i % 64)) &&& 1) == 1))
  else none

/-- The interior-word loop with checked slice accesses. -/
def rankLoopChk (v : List Nat) (i : Nat) (ret beg : Nat) : Option (Nat × Nat) :=
  if beg + 64 < i then
    if beg / 64 < v.length then
      rankLoopChk v i (ret + popcount (v.getD (beg / 64) 0)) (beg + 64)
    else none
  else some (ret, beg)
termination_by i - beg

/-- The body of `Rank1` with checked slice accesses. -/
def rank1ValChk (b : BitVector) (i : Nat) : Option Nat :=
  if i / b.logSquared < b.rank.length then
    let ret := b.rank.getD (i / b.logSquared) 0
    let beg := i / b.logSquared * b.logSquared
    if (beg / 64) * 64 ≤ beg ∧ i ≤ (beg / 64 + 1) * 64 then
      if beg / 64 < b.v.length then
        let x := b.v.getD (beg / 64) 0
        let x := x &&& w64 (maskFF <<< (beg - beg / 64 * 64))
        let x := x &&& (maskFF >>> ((beg / 64 + 1) * 64 - i))
        some (ret + popcount x)
      else none
    else
      (if (beg / 64 + 1) * 64 - beg > 0 then
        (if beg / 64 < b.v.length then
          let offset := (beg / 64 + 1) * 64 - beg
          some (ret + popcount (b.v.getD (beg / 64) 0 &&& comp64 (maskFF >>> (offset % 64))),
            beg + offset)
        else none)
      else some (ret, beg)).bind (fun p =>
        (rankLoopChk b.v i p.1 p.2).bind (fun q =>
          if q.2 / 64 < b.v.length then
            some (q.1 + popcount (b.v.getD (q.2 / 64) 0 &&& comp64 (w64 (maskFF <<< (i % 64)))))
          else none))
  else none

/-- The `Rank1` computation with checked slice accesses. -/
def Rank1Chk (b : BitVector) (i : Nat) : Option (Except Err Nat) :=
  if i > b.size then some (.error .outOfRange)
  else (rank1ValChk b i).map .ok

end Log2

/-! ### Proof-support definitions

Byte decomposition used to prove the popcount algorithm correct, and the
byte-level images of its first two steps. -/

/-- Recombine a little-endian byte string into a number. -/
def combine : List Nat → Nat
  | [] => 0
  | b :: bs => b + 256 * combine bs

/-- A mask byte repeated `n` times. -/
def maskRep (m n : Nat) : Nat := combine (List.replicate n m)

/-- The leaking per-byte right shift by 4: each byte receives the low
nibble of its higher neighbour. -/
def shift4 : List Nat → List Nat
  | [] => []
  | [b] => [b >>> 4]
  | b :: c :: rest => ((b >>> 4) + (c % 16) * 16) :: shift4 (c :: rest)

/-- Byte-level image of the first popcount step. -/
def s1 (b : Nat) : Nat := (b &&& 0x55) + ((b >>> 1) &&& 0x55)

/-- Byte-level image of the second popcount step. -/
def s2 (b : Nat) : Nat := (b &&& 0x33) + ((b >>> 2) &&& 0x33)

/-- The eight bytes of a 64-bit word, low byte first. -/
def bytesOf (x : Nat) : List Nat :=
  [x % 256, x / 256 % 256, x / 65536 % 256, x / 16777216 % 256,
   x / 4294967296 % 256, x / 1099511627776 % 256,
   x / 281474976710656 % 256, x / 72057594037927936 % 256]

/-! ### The bit-count specification and correctness of popcount -/

theorem bitCount_congr {w w2 k : Nat} (h : ∀ j, j < k → w.testBit j = w2.testBit j) :
    bitCount w k = bitCount w2 k := by
  induction k with
  | zero => rfl
  | succ k ih =>
    simp only [bitCount, ih (fun j hj => h j (by omega)), h k (by omega)]

theorem bitCount_zero (k : Nat) : bitCount 0 k = 0 := by
  induction k with
  | zero => rfl
  | succ k ih => simp [bitCount, ih]

theorem bitCount_add (w m n : Nat) :
    bitCount w (m + n) = bitCount w m + bitCount (w >>> m) n := by
  induction n with
  | zero => simp [bitCount]
  | succ n ih =>
    have h : m + (n + 1) = (m + n) + 1 := by omega
    rw [h]
    simp only [bitCount, ih, Nat.testBit_shiftRight, Nat.add_assoc]

theorem bitCount_mod_two_pow (w k : Nat) : bitCount (w % 2 ^ k) k = bitCount w k :=
  bitCount_congr (fun j hj => by simp [Nat.testBit_mod_two_pow, hj])

theorem bitCount_of_lt {w m k : Nat} (hw : w < 2 ^ m) (hmk : m ≤ k) :
    bitCount w k = bitCount w m := by
  obtain ⟨d, rfl⟩ := Nat.exists_eq_add_of_le hmk
  rw [bitCount_add]
  have hz : w >>> m = 0 := by
    rw [Nat.shiftRight_eq_div_pow]; exact Nat.div_eq_of_lt hw
  simp [hz, bitCount_zero]

theorem combine_lt {bs : List Nat} (h : ∀ b ∈ bs, b < 256) :
    combine bs < 256 ^ bs.length := by
  induction bs with
  | nil => simp [combine]
  | cons b bs ih =>
    have hb := h b (by simp)
    have hc := ih (fun x hx => h x (by simp [hx]))
    calc b + 256 * combine bs < 256 * (combine bs + 1) := by omega
      _ ≤ 256 * 256 ^ bs.length := Nat.mul_le_mul_left _ hc
      _ = 256 ^ (b :: bs).length := by rw [List.length_cons, pow_succ, Nat.mul_comm]

theorem and_split (a c m0 m1 : Nat) (ha : a < 256) (hm : m0 < 256) :
    (a + 256 * c) &&& (m0 + 256 * m1) = (a &&& m0) + 256 * (c &&& m1) := by
  have ha8 : a < 2 ^ 8 := ha
  have hm8 : m0 < 2 ^ 8 := hm
  have hand : (a &&& m0) < 2 ^ 8 := Nat.and_lt_two_pow a hm8
  apply Nat.eq_of_testBit_eq
  intro j
  have e1 : a + 256 * c = 2 ^ 8 * c + a := by omega
  have e2 : m0 + 256 * m1 = 2 ^ 8 * m1 + m0 := by omega
  have e3 : (a &&& m0) + 256 * (c &&& m1) = 2 ^ 8 * (c &&& m1) + (a &&& m0) := by omega
  rw [e1, e2, e3, Nat.testBit_and,
    Nat.testBit_mul_pow_two_add _ ha8, Nat.testBit_mul_pow_two_add _ hm8,
    Nat.testBit_mul_pow_two_add _ hand]
  by_cases hj : j < 8 <;> simp [hj, Nat.testBit_and]

theorem and_low (u z m t : Nat) (hu : u < 2 ^ t) (hm : m < 2 ^ t) :
    (u + 2 ^ t * z) &&& m = u &&& m := by
  apply Nat.eq_of_testBit_eq
  intro j
  rcases Nat.lt_or_ge j t with hj | hj
  · have e1 : u + 2 ^ t * z = 2 ^ t * z + u := by omega
    rw [e1, Nat.testBit_and, Nat.testBit_and, Nat.testBit_mul_pow_two_add _ hu]
    simp [hj]
  · have hmj : m.testBit j = false :=
      Nat.testBit_lt_two_pow (Nat.lt_of_lt_of_le hm (Nat.pow_le_pow_right (by omega) hj))
    simp [Nat.testBit_and, hmj]

theorem combine_and {bs : List Nat} (m : Nat) (hb : ∀ b ∈ bs, b < 256) (hm : m < 256) :
    combine bs &&& maskRep m bs.length = combine (bs.map (· &&& m)) := by
  induction bs with
  | nil => simp [combine, maskRep]
  | cons b bs ih =>
    have hrep : maskRep m (b :: bs).length = m + 256 * maskRep m bs.length := by
      simp [maskRep, List.replicate, combine]
    rw [hrep]
    show (b + 256 * combine bs) &&& (m + 256 * maskRep m bs.length) = _
    rw [and_split b (combine bs) m (maskRep m bs.length) (hb b (by simp)) hm,
      ih (fun x hx => hb x (by simp [hx]))]
    simp [combine]

theorem combine_shift_and {bs : List Nat} (s m : Nat) (hb : ∀ b ∈ bs, b < 256)
    (hs : s ≤ 8) (hm : m < 2 ^ (8 - s)) :
    (combine bs >>> s) &&& maskRep m bs.length = combine (bs.map (fun b => (b >>> s) &&& m)) := by
  induction bs with
  | nil => simp [combine, maskRep]
  | cons b bs ih =>
    have hb0 : b < 256 := hb b (by simp)
    have hpow : (2 : Nat) ^ s * 2 ^ (8 - s) = 256 := by
      rw [← pow_add]
      have h : s + (8 - s) = 8 := by omega
      rw [h]; norm_num
    have hbs : b >>> s < 2 ^ (8 - s) := by
      rw [Nat.shiftRight_eq_div_pow]
      apply Nat.div_lt_of_lt_mul
      omega
    have key : (b + 256 * combine bs) >>> s = (b >>> s) + 2 ^ (8 - s) * combine bs := by
      rw [Nat.shiftRight_eq_div_pow, Nat.shiftRight_eq_div_pow, ← hpow, Nat.mul_assoc,
        Nat.add_mul_div_left _ _ (Nat.two_pow_pos s)]
    have hcomb : combine (b :: bs) = b + 256 * combine bs := rfl
    rw [hcomb, key]
    have resplit : (b >>> s) + 2 ^ (8 - s) * combine bs
        = ((b >>> s) + 2 ^ (8 - s) * (combine bs % 2 ^ s)) + 256 * (combine bs / 2 ^ s) := by
      conv_lhs => rw [← Nat.div_add_mod (combine bs) (2 ^ s)]
      rw [← hpow]
      ring
    rw [resplit]
    have hrep : maskRep m (b :: bs).length = m + 256 * maskRep m bs.length := by
      simp [maskRep, List.replicate, combine]
    rw [hrep]
    have hr : combine bs % 2 ^ s < 2 ^ s := Nat.mod_lt _ (Nat.two_pow_pos s)
    have hlow : (b >>> s) + 2 ^ (8 - s) * (combine bs % 2 ^ s) < 256 := by
      calc (b >>> s) + 2 ^ (8 - s) * (combine bs % 2 ^ s)
          < 2 ^ (8 - s) * (combine bs % 2 ^ s + 1) := by
            rw [Nat.mul_add, Nat.mul_one]; omega
        _ ≤ 2 ^ (8 - s) * 2 ^ s := Nat.mul_le_mul_left _ (by omega)
        _ = 256 := by rw [Nat.mul_comm]; exact hpow
    have hm256 : m < 256 := by
      have h2 : (2 : Nat) ^ (8 - s) ≤ 2 ^ 8 := Nat.pow_le_pow_right (by omega) (by omega)
      omega
    rw [and_split _ _ m _ hlow hm256,
      and_low (b >>> s) (combine bs % 2 ^ s) m (8 - s) hbs hm,
      ← Nat.shiftRight_eq_div_pow,
      ih (fun x hx => hb x (by simp [hx]))]
    simp [combine]

theorem combine_zipWith_add : ∀ (xs ys : List Nat), xs.length = ys.length →
    combine (List.zipWith (· + ·) xs ys) = combine xs + combine ys
  | [], [], _ => by simp [combine]
  | x :: xs, y :: ys, h => by
    have ih := combine_zipWith_add xs ys (by simpa using h)
    simp only [List.zipWith_cons_cons, combine, ih]
    ring

theorem zipWith_add_map (f g : Nat → Nat) : ∀ bs : List Nat,
    List.zipWith (· + ·) (bs.map f) (bs.map g) = bs.map (fun b => f b + g b)
  | [] => rfl
  | b :: bs => by simp [zipWith_add_map f g bs]

theorem length_shift4 : ∀ bs : List Nat, (shift4 bs).length = bs.length
  | [] => rfl
  | [_] => rfl
  | _ :: c :: rest => by
    simp only [shift4, List.length_cons, length_shift4 (c :: rest), List.length_cons]

theorem combine_shiftRight4 : ∀ bs : List Nat, (∀ b ∈ bs, b < 256) →
    combine bs >>> 4 = combine (shift4 bs)
  | [], _ => rfl
  | [b], h => by
    simp [combine, shift4, Nat.shiftRight_eq_div_pow]
  | b :: c :: rest, h => by
    have ih := combine_shiftRight4 (c :: rest) (fun x hx => h x (by simp at hx ⊢; tauto))
    have hb : b < 256 := h b (by simp)
    have hc : c < 256 := h c (by simp)
    simp only [combine, shift4] at ih ⊢
    rw [Nat.shiftRight_eq_div_pow] at ih ⊢
    omega


set_option maxRecDepth 4096 in
theorem byteFacts : ∀ b : Fin 256,
    s2 (s1 b.val) ≤ 0x44 ∧ s2 (s1 b.val) % 16 ≤ 4 ∧
    (s2 (s1 b.val) + (s2 (s1 b.val) >>> 4)) % 16 = bitCount b.val 8 ∧
    bitCount b.val 8 ≤ 8 := by decide

theorem s1_lt (b : Nat) : s1 b < 256 := by
  have h1 : b &&& 0x55 ≤ 0x55 := Nat.and_le_right
  have h2 : (b >>> 1) &&& 0x55 ≤ 0x55 := Nat.and_le_right
  simp only [s1]; omega

theorem s2_lt (b : Nat) : s2 b < 256 := by
  have h1 : b &&& 0x33 ≤ 0x33 := Nat.and_le_right
  have h2 : (b >>> 2) &&& 0x33 ≤ 0x33 := Nat.and_le_right
  simp only [s2]; omega

-- the three mask constants are byte-repeated masks
theorem mask55_rep : mask55 = maskRep 0x55 8 := by decide
theorem mask33_rep : mask33 = maskRep 0x33 8 := by decide
theorem mask0F_rep : mask0F = maskRep 0x0f 8 := by decide

theorem step1_eq (bs : List Nat) (hb : ∀ b ∈ bs, b < 256) (h8 : bs.length = 8) :
    w64 ((combine bs &&& mask55) + ((combine bs >>> 1) &&& mask55)) = combine (bs.map s1) := by
  rw [mask55_rep]
  have e1 : combine bs &&& maskRep 0x55 8 = combine (bs.map (· &&& 0x55)) := by
    rw [← h8]; exact combine_and _ hb (by norm_num)
  have e2 : (combine bs >>> 1) &&& maskRep 0x55 8 = combine (bs.map (fun b => (b >>> 1) &&& 0x55)) := by
    rw [← h8]; exact combine_shift_and 1 0x55 hb (by norm_num) (by norm_num)
  rw [e1, e2, ← combine_zipWith_add _ _ (by simp), zipWith_add_map]
  show w64 (combine (bs.map s1)) = _
  have hlt : combine (bs.map s1) < 256 ^ (bs.map s1).length :=
    combine_lt (by intro x hx; simp at hx; obtain ⟨b, _, rfl⟩ := hx; exact s1_lt b)
  rw [List.length_map, h8] at hlt
  have : (256 : Nat) ^ 8 = 18446744073709551616 := by norm_num
  rw [this] at hlt
  simp [w64, Nat.mod_eq_of_lt hlt]

theorem step2_eq (bs1 : List Nat) (hb : ∀ b ∈ bs1, b < 256) (h8 : bs1.length = 8) :
    w64 ((combine bs1 &&& mask33) + ((combine bs1 >>> 2) &&& mask33)) = combine (bs1.map s2) := by
  rw [mask33_rep]
  have e1 : combine bs1 &&& maskRep 0x33 8 = combine (bs1.map (· &&& 0x33)) := by
    rw [← h8]; exact combine_and _ hb (by norm_num)
  have e2 : (combine bs1 >>> 2) &&& maskRep 0x33 8 = combine (bs1.map (fun b => (b >>> 2) &&& 0x33)) := by
    rw [← h8]; exact combine_shift_and 2 0x33 hb (by norm_num) (by norm_num)
  rw [e1, e2, ← combine_zipWith_add _ _ (by simp), zipWith_add_map]
  show w64 (combine (bs1.map s2)) = _
  have hlt : combine (bs1.map s2) < 256 ^ (bs1.map s2).length :=
    combine_lt (by intro x hx; simp at hx; obtain ⟨b, _, rfl⟩ := hx; exact s2_lt b)
  rw [List.length_map, h8] at hlt
  have : (256 : Nat) ^ 8 = 18446744073709551616 := by norm_num
  rw [this] at hlt
  simp [w64, Nat.mod_eq_of_lt hlt]

-- bytes of the zipWith-with-shift4 sum stay below 256, when each byte is
-- at most 0x44 with low nibble at most 4
theorem zip_shift4_lt : ∀ bs : List Nat, (∀ b ∈ bs, b ≤ 0x44 ∧ b % 16 ≤ 4) →
    ∀ y ∈ List.zipWith (· + ·) bs (shift4 bs), y < 256
  | [], _, y, hy => by simp at hy
  | [b], h, y, hy => by
    obtain ⟨h1, _⟩ := h b (by simp)
    simp [shift4] at hy
    rw [Nat.shiftRight_eq_div_pow] at hy
    omega
  | b :: c :: rest, h, y, hy => by
    obtain ⟨hb1, _⟩ := h b (by simp)
    obtain ⟨_, hc2⟩ := h c (by simp)
    simp only [shift4, List.zipWith_cons_cons, List.mem_cons] at hy
    rcases hy with rfl | hy
    · rw [Nat.shiftRight_eq_div_pow]; omega
    · exact zip_shift4_lt (c :: rest) (fun x hx => h x (by simp at hx ⊢; tauto)) y hy

theorem zip_shift4_mask : ∀ bs : List Nat,
    (List.zipWith (· + ·) bs (shift4 bs)).map (· &&& 0x0f)
      = bs.map (fun b => (b + (b >>> 4)) % 16)
  | [] => rfl
  | [b] => by
    simp [shift4]
    have : (0x0f : Nat) = 2 ^ 4 - 1 := by norm_num
    rw [this, Nat.and_pow_two_sub_one_eq_mod]
  | b :: c :: rest => by
    have ih := zip_shift4_mask (c :: rest)
    simp only [shift4, List.zipWith_cons_cons, List.map_cons] at ih ⊢
    rw [ih]
    congr 1
    have : (0x0f : Nat) = 2 ^ 4 - 1 := by norm_num
    rw [this, Nat.and_pow_two_sub_one_eq_mod]
    omega

theorem step3_eq (bs2 : List Nat) (hb : ∀ b ∈ bs2, b ≤ 0x44 ∧ b % 16 ≤ 4) (h8 : bs2.length = 8) :
    w64 (combine bs2 + (combine bs2 >>> 4)) &&& mask0F
      = combine (bs2.map (fun b => (b + (b >>> 4)) % 16)) := by
  have hb256 : ∀ b ∈ bs2, b < 256 := fun b hbm => by have := (hb b hbm).1; omega
  have hzlt := zip_shift4_lt bs2 hb
  have hlen : (List.zipWith (· + ·) bs2 (shift4 bs2)).length = 8 := by
    simp [length_shift4, h8]
  have hclt : combine (List.zipWith (· + ·) bs2 (shift4 bs2)) < 18446744073709551616 := by
    have h := combine_lt hzlt
    rw [hlen] at h
    have h2 : (256 : Nat) ^ 8 = 18446744073709551616 := by norm_num
    omega
  rw [combine_shiftRight4 bs2 hb256,
    ← combine_zipWith_add _ _ (length_shift4 bs2).symm]
  show w64 (combine (List.zipWith (· + ·) bs2 (shift4 bs2))) &&& mask0F = _
  rw [w64, Nat.mod_eq_of_lt hclt, mask0F_rep, ← hlen,
    combine_and _ hzlt (by norm_num), zip_shift4_mask]


theorem step4_eq (ps : List Nat) (h8 : ps.length = 8) (hb : ∀ p ∈ ps, p ≤ 8) :
    (w64 (combine ps * mask01) >>> 56) &&& 0x7f = ps.sum := by
  rcases ps with _ | ⟨p0, _ | ⟨p1, _ | ⟨p2, _ | ⟨p3, _ | ⟨p4, _ | ⟨p5, _ | ⟨p6, _ | ⟨p7, _ | ⟨p8, t⟩⟩⟩⟩⟩⟩⟩⟩⟩ <;>
    simp only [List.length_cons, List.length_nil] at h8 <;>
    first
    | omega
    | skip
  · have h0 : p0 ≤ 8 := hb p0 (by simp)
    have h1 : p1 ≤ 8 := hb p1 (by simp)
    have h2 : p2 ≤ 8 := hb p2 (by simp)
    have h3 : p3 ≤ 8 := hb p3 (by simp)
    have h4 : p4 ≤ 8 := hb p4 (by simp)
    have h5 : p5 ≤ 8 := hb p5 (by simp)
    have h6 : p6 ≤ 8 := hb p6 (by simp)
    have h7 : p7 ≤ 8 := hb p7 (by simp)
    have hand : ∀ y : Nat, y &&& 0x7f = y % 128 := by
      intro y
      have h : (0x7f : Nat) = 2 ^ 7 - 1 := by norm_num
      rw [h, Nat.and_pow_two_sub_one_eq_mod]
    rw [hand, Nat.shiftRight_eq_div_pow]
    simp only [combine, mask01, w64, List.sum_cons, List.sum_nil]
    have hpow56 : (2 : Nat) ^ 56 = 72057594037927936 := by norm_num
    rw [hpow56]
    have e1 : (p0 + 256 * (p1 + 256 * (p2 + 256 * (p3 + 256 * (p4 + 256 * (p5 + 256 * (p6 + 256 * (p7 + 256 * 0)))))))) * 72340172838076673
        = (p0 + 256 * (p0 + p1) + 65536 * (p0 + p1 + p2) + 16777216 * (p0 + p1 + p2 + p3)
            + 4294967296 * (p0 + p1 + p2 + p3 + p4) + 1099511627776 * (p0 + p1 + p2 + p3 + p4 + p5)
            + 281474976710656 * (p0 + p1 + p2 + p3 + p4 + p5 + p6)
            + 72057594037927936 * (p0 + p1 + p2 + p3 + p4 + p5 + p6 + p7))
          + 18446744073709551616 * ((p1 + p2 + p3 + p4 + p5 + p6 + p7)
            + 256 * (p2 + p3 + p4 + p5 + p6 + p7) + 65536 * (p3 + p4 + p5 + p6 + p7)
            + 16777216 * (p4 + p5 + p6 + p7) + 4294967296 * (p5 + p6 + p7)
            + 1099511627776 * (p6 + p7) + 281474976710656 * p7) := by ring
    rw [e1, Nat.add_mul_mod_self_left]
    clear e1
    have eL : (p0 + 256 * (p0 + p1) + 65536 * (p0 + p1 + p2) + 16777216 * (p0 + p1 + p2 + p3)
            + 4294967296 * (p0 + p1 + p2 + p3 + p4) + 1099511627776 * (p0 + p1 + p2 + p3 + p4 + p5)
            + 281474976710656 * (p0 + p1 + p2 + p3 + p4 + p5 + p6)
            + 72057594037927936 * (p0 + p1 + p2 + p3 + p4 + p5 + p6 + p7)) % 18446744073709551616
        = (p0 + 256 * (p0 + p1) + 65536 * (p0 + p1 + p2) + 16777216 * (p0 + p1 + p2 + p3)
            + 4294967296 * (p0 + p1 + p2 + p3 + p4) + 1099511627776 * (p0 + p1 + p2 + p3 + p4 + p5)
            + 281474976710656 * (p0 + p1 + p2 + p3 + p4 + p5 + p6)
            + 72057594037927936 * (p0 + p1 + p2 + p3 + p4 + p5 + p6 + p7)) :=
      Nat.mod_eq_of_lt (by omega)
    rw [eL]
    clear eL
    have esplit : (p0 + 256 * (p0 + p1) + 65536 * (p0 + p1 + p2) + 16777216 * (p0 + p1 + p2 + p3)
            + 4294967296 * (p0 + p1 + p2 + p3 + p4) + 1099511627776 * (p0 + p1 + p2 + p3 + p4 + p5)
            + 281474976710656 * (p0 + p1 + p2 + p3 + p4 + p5 + p6)
            + 72057594037927936 * (p0 + p1 + p2 + p3 + p4 + p5 + p6 + p7))
        = (p0 + 256 * (p0 + p1) + 65536 * (p0 + p1 + p2) + 16777216 * (p0 + p1 + p2 + p3)
            + 4294967296 * (p0 + p1 + p2 + p3 + p4) + 1099511627776 * (p0 + p1 + p2 + p3 + p4 + p5)
            + 281474976710656 * (p0 + p1 + p2 + p3 + p4 + p5 + p6))
          + 72057594037927936 * (p0 + p1 + p2 + p3 + p4 + p5 + p6 + p7) := by ring
    rw [esplit, Nat.add_mul_div_left _ _ (by norm_num : (0 : Nat) < 72057594037927936)]
    clear esplit
    have hsmall : (p0 + 256 * (p0 + p1) + 65536 * (p0 + p1 + p2) + 16777216 * (p0 + p1 + p2 + p3)
            + 4294967296 * (p0 + p1 + p2 + p3 + p4) + 1099511627776 * (p0 + p1 + p2 + p3 + p4 + p5)
            + 281474976710656 * (p0 + p1 + p2 + p3 + p4 + p5 + p6)) / 72057594037927936 = 0 :=
      Nat.div_eq_of_lt (by omega)
    rw [hsmall]
    clear hsmall
    omega

theorem bytesOf_length (x : Nat) : (bytesOf x).length = 8 := rfl

theorem bytesOf_lt (x : Nat) : ∀ b ∈ bytesOf x, b < 256 := by
  intro b hb
  simp only [bytesOf, List.mem_cons, List.not_mem_nil, or_false] at hb
  rcases hb with rfl | rfl | rfl | rfl | rfl | rfl | rfl | rfl <;> omega

theorem combine_bytesOf {x : Nat} (hx : x < 2 ^ 64) :
    combine (bytesOf x) = x := by
  simp only [bytesOf, combine]
  omega

theorem bitCount_combine (bs : List Nat) (hb : ∀ b ∈ bs, b < 256) :
    bitCount (combine bs) (8 * bs.length) = (bs.map (fun b => bitCount b 8)).sum := by
  induction bs with
  | nil => simp [combine, bitCount_zero, bitCount]
  | cons b bs ih =>
    have hb0 : b < 256 := hb b (by simp)
    have hshift : combine (b :: bs) >>> 8 = combine bs := by
      show (b + 256 * combine bs) >>> 8 = combine bs
      rw [Nat.shiftRight_eq_div_pow]
      omega
    have hlen : 8 * (b :: bs).length = 8 + 8 * bs.length := by
      simp [List.length_cons]; ring
    rw [hlen, bitCount_add, hshift, ih (fun x hx => hb x (by simp [hx]))]
    have hfirst : bitCount (combine (b :: bs)) 8 = bitCount b 8 := by
      apply bitCount_congr
      intro j hj
      show (b + 256 * combine bs).testBit j = b.testBit j
      have e : b + 256 * combine bs = 2 ^ 8 * combine bs + b := by omega
      rw [e, Nat.testBit_mul_pow_two_add _ (show b < 2 ^ 8 from hb0)]
      simp [hj]
    rw [hfirst]
    simp [List.map_cons, List.sum_cons]

/-- popcount is the linear-scan bit count, for any 8-byte combination. -/
theorem popcount_combine (bs : List Nat) (h8 : bs.length = 8) (hb : ∀ b ∈ bs, b < 256) :
    popcount (combine bs) = bitCount (combine bs) 64 := by
  have e1 := step1_eq bs hb h8
  have hb1 : ∀ b ∈ bs.map s1, b < 256 := by
    intro b hbm
    simp only [List.mem_map] at hbm
    obtain ⟨a, _, rfl⟩ := hbm
    exact s1_lt a
  have h81 : (bs.map s1).length = 8 := by simp [h8]
  have e2 := step2_eq (bs.map s1) hb1 h81
  have hb2 : ∀ b ∈ (bs.map s1).map s2, b ≤ 0x44 ∧ b % 16 ≤ 4 := by
    intro b hbm
    simp only [List.mem_map] at hbm
    obtain ⟨a, ⟨a0, ha0, rfl⟩, rfl⟩ := hbm
    have ha256 : a0 < 256 := hb a0 ha0
    have hf := byteFacts ⟨a0, ha256⟩
    exact ⟨hf.1, hf.2.1⟩
  have h82 : ((bs.map s1).map s2).length = 8 := by simp [h8]
  have e3 := step3_eq ((bs.map s1).map s2) hb2 h82
  have hps : ∀ p ∈ ((bs.map s1).map s2).map (fun b => (b + (b >>> 4)) % 16), p ≤ 8 := by
    intro p hp
    simp only [List.mem_map] at hp
    obtain ⟨a, ⟨a1, ⟨a0, ha0, rfl⟩, rfl⟩, rfl⟩ := hp
    have ha256 : a0 < 256 := hb a0 ha0
    have hf := byteFacts ⟨a0, ha256⟩
    rw [hf.2.2.1]
    exact hf.2.2.2
  have h84 : (((bs.map s1).map s2).map (fun b => (b + (b >>> 4)) % 16)).length = 8 := by simp [h8]
  have e4 := step4_eq _ h84 hps
  have hrhs : bitCount (combine bs) 64 = (bs.map (fun b => bitCount b 8)).sum := by
    have h64 : (64 : Nat) = 8 * bs.length := by rw [h8]
    rw [h64, bitCount_combine bs hb]
  simp only [popcount]
  rw [e1, e2, e3, e4, hrhs, List.map_map, List.map_map]
  congr 1
  apply List.map_congr_left
  intro a ha
  have ha256 : a < 256 := hb a ha
  have hf := byteFacts ⟨a, ha256⟩
  simp only [Function.comp]
  exact hf.2.2.1

/-- Full correctness of the draft popcount over the 64-bit word domain. -/
theorem popcount_spec {x : Nat} (hx : x < 2 ^ 64) :
    popcount x = bitCount x 64 := by
  rw [← combine_bytesOf hx]
  exact popcount_combine (bytesOf x) (bytesOf_length x) (bytesOf_lt x)


theorem rotl64_lt {x : Nat} (hx : x < 2 ^ 64) (r : Nat) : rotl64 x r < 2 ^ 64 := by
  have hsk : (2 : Nat) ^ (64 - r % 64) * 2 ^ (r % 64) = 2 ^ 64 := by
    have hs : r % 64 < 64 := Nat.mod_lt _ (by norm_num)
    rw [← pow_add]
    congr 1
    omega
  have hA : x % 2 ^ (64 - r % 64) < 2 ^ (64 - r % 64) :=
    Nat.mod_lt _ (Nat.two_pow_pos _)
  have hB : x / 2 ^ (64 - r % 64) < 2 ^ (r % 64) := by
    apply Nat.div_lt_of_lt_mul
    rw [hsk]
    exact hx
  have h1 : x % 2 ^ (64 - r % 64) ≤ 2 ^ (64 - r % 64) - 1 := by omega
  have h2 : (x % 2 ^ (64 - r % 64)) * 2 ^ (r % 64)
      ≤ (2 ^ (64 - r % 64) - 1) * 2 ^ (r % 64) := Nat.mul_le_mul_right _ h1
  have h3 : (2 ^ (64 - r % 64) - 1) * 2 ^ (r % 64) = 2 ^ 64 - 2 ^ (r % 64) := by
    rw [Nat.sub_mul, one_mul, hsk]
  have h4 : (0 : Nat) < 2 ^ (r % 64) := Nat.two_pow_pos _
  have h5 : (2 : Nat) ^ (r % 64) ≤ 2 ^ 64 :=
    Nat.pow_le_pow_right (by omega) (by have := Nat.mod_lt r (show 0 < 64 by omega); omega)
  show (x % 2 ^ (64 - r % 64)) * 2 ^ (r % 64) + x / 2 ^ (64 - r % 64) < 2 ^ 64
  calc (x % 2 ^ (64 - r % 64)) * 2 ^ (r % 64) + x / 2 ^ (64 - r % 64)
      ≤ (2 ^ (64 - r % 64) - 1) * 2 ^ (r % 64) + x / 2 ^ (64 - r % 64) :=
        Nat.add_le_add_right h2 _
    _ = 2 ^ 64 - 2 ^ (r % 64) + x / 2 ^ (64 - r % 64) := by rw [h3]
    _ < 2 ^ 64 := by omega

theorem bitCount_rotl64 {x : Nat} (hx : x < 2 ^ 64) (r : Nat) :
    bitCount (rotl64 x r) 64 = bitCount x 64 := by
  have hs : r % 64 < 64 := Nat.mod_lt _ (by norm_num)
  have hrot : rotl64 x r = (x % 2 ^ (64 - r % 64)) * 2 ^ (r % 64) + x / 2 ^ (64 - r % 64) := rfl
  rw [hrot]
  obtain ⟨s, hs_eq⟩ : ∃ s, r % 64 = s := ⟨_, rfl⟩
  rw [hs_eq]
  obtain ⟨k, hk_eq⟩ : ∃ k, 64 - s = k := ⟨_, rfl⟩
  rw [hk_eq]
  have hsk : (2 : Nat) ^ k * 2 ^ s = 2 ^ 64 := by
    rw [← pow_add]; congr 1; omega
  have hB : x / 2 ^ k < 2 ^ s := by
    apply Nat.div_lt_of_lt_mul; rw [hsk]; exact hx
  have lhs1 : bitCount ((x % 2 ^ k) * 2 ^ s + x / 2 ^ k) 64
      = bitCount (x / 2 ^ k) s + bitCount (x % 2 ^ k) k := by
    conv_lhs => rw [show (64 : Nat) = s + k from by omega]
    rw [bitCount_add]
    congr 1
    · apply bitCount_congr
      intro j hj
      have e : (x % 2 ^ k) * 2 ^ s + x / 2 ^ k = 2 ^ s * (x % 2 ^ k) + x / 2 ^ k := by ring
      rw [e, Nat.testBit_mul_pow_two_add _ hB]
      simp [hj]
    · have e : ((x % 2 ^ k) * 2 ^ s + x / 2 ^ k) >>> s = x % 2 ^ k := by
        rw [Nat.shiftRight_eq_div_pow]
        have e2 : (x % 2 ^ k) * 2 ^ s + x / 2 ^ k = x / 2 ^ k + 2 ^ s * (x % 2 ^ k) := by ring
        rw [e2, Nat.add_mul_div_left _ _ (Nat.two_pow_pos _), Nat.div_eq_of_lt hB, Nat.zero_add]
      rw [e]
  have rhs1 : bitCount x 64 = bitCount x k + bitCount (x / 2 ^ k) s := by
    conv_lhs => rw [show (64 : Nat) = k + s from by omega]
    rw [bitCount_add, Nat.shiftRight_eq_div_pow]
  have hmod : bitCount (x % 2 ^ k) k = bitCount x k := bitCount_mod_two_pow x k
  omega

theorem popcount_maskFF : popcount maskFF = 64 := by decide
theorem popcount_zero : popcount 0 = 0 := by decide

/-! ### The low-bits mask identity -/

theorem mask_low_bits {s : Nat} (hs : s < 64) :
    comp64 (w64 (maskFF <<< s)) = 2 ^ s - 1 := by
  have h1 : w64 (maskFF <<< s) = 2 ^ 64 - 2 ^ s := by
    rw [Nat.shiftLeft_eq]
    unfold w64 maskFF
    have hp : (2 : Nat) ^ s ≤ 2 ^ 64 := Nat.pow_le_pow_right (by omega) (by omega)
    have hp1 : (0 : Nat) < 2 ^ s := Nat.two_pow_pos s
    have hFF : (0xffffffffffffffff : Nat) = 18446744073709551616 - 1 := by norm_num
    rw [hFF]
    have h2 : (2 : Nat) ^ 64 = 18446744073709551616 := by norm_num
    rw [h2]
    omega
  rw [h1]
  unfold comp64 maskFF
  apply Nat.eq_of_testBit_eq
  intro j
  have hFF : (0xffffffffffffffff : Nat) = 2 ^ 64 - 1 := by norm_num
  have e : (2 : Nat) ^ 64 - 2 ^ s = 2 ^ s * (2 ^ (64 - s) - 1) := by
    rw [Nat.mul_sub, Nat.mul_one, ← pow_add]
    have h : s + (64 - s) = 64 := by omega
    rw [h]
  rw [hFF, e, Nat.testBit_xor, Nat.testBit_mul_pow_two,
    Nat.testBit_two_pow_sub_one, Nat.testBit_two_pow_sub_one, Nat.testBit_two_pow_sub_one]
  by_cases h1 : j < s <;> by_cases h2 : j < 64 <;>
    simp [h1, h2] <;> omega

/-! ### Exactness of the Simple (64-bit-block) rank -/

theorem ranksFrom_length : ∀ (c : Nat) (ws : List Nat),
    (Simple.ranksFrom c ws).length = ws.length
  | _, [] => rfl
  | c, w :: ws => by
    simp only [Simple.ranksFrom, List.length_cons, ranksFrom_length (c + popcount w) ws]

theorem ranksFrom_getD : ∀ (c k : Nat) (ws : List Nat), k < ws.length →
    (Simple.ranksFrom c ws).getD k 0 = c + ((ws.take k).map popcount).sum
  | _, 0, _ :: _, _ => by simp [Simple.ranksFrom]
  | c, k + 1, w :: ws, h => by
    simp only [Simple.ranksFrom, List.getD_cons_succ, List.take_succ_cons, List.map_cons,
      List.sum_cons, ranksFrom_getD (c + popcount w) k ws (by simpa using h)]
    omega

theorem take_map_sum_succ (f : Nat → Nat) : ∀ (ws : List Nat) (q : Nat), q < ws.length →
    ((ws.take (q + 1)).map f).sum = ((ws.take q).map f).sum + f (ws.getD q 0)
  | w :: ws, 0, _ => by simp
  | w :: ws, q + 1, h => by
    simp only [List.take_succ_cons, List.map_cons, List.sum_cons,
      take_map_sum_succ f ws q (by simpa using h), List.getD_cons_succ]
    omega

theorem scanCount_decomp (ws : List Nat) : ∀ i : Nat,
    scanCount ws true i = ((ws.take (i / 64)).map (fun w => bitCount w 64)).sum
      + bitCount (ws.getD (i / 64) 0) (i % 64)
  | 0 => by simp [scanCount, bitCount]
  | i + 1 => by
    have ih := scanCount_decomp ws i
    by_cases h : (i + 1) % 64 = 0
    · have h1 : i % 64 = 63 := by omega
      have h2 : (i + 1) / 64 = i / 64 + 1 := by omega
      rw [scanCount, ih, h2, h]
      by_cases hq : i / 64 < ws.length
      · rw [take_map_sum_succ _ ws (i / 64) hq]
        have hbit : bitCount (ws.getD (i / 64) 0) 64
            = bitCount (ws.getD (i / 64) 0) 63
              + (if (ws.getD (i / 64) 0).testBit 63 then 1 else 0) := rfl
        simp only [bitAt, h1, hbit, bitCount]
        omega
      · have hle : ws.length ≤ i / 64 := by omega
        have hle2 : ws.length ≤ i / 64 + 1 := by omega
        rw [List.take_of_length_le hle, List.take_of_length_le hle2,
          List.getD_eq_default _ _ hle, List.getD_eq_default _ _ hle2]
        simp only [bitAt, List.getD_eq_default _ _ hle, h1, bitCount]
        simp [bitCount_zero]
    · have h2 : (i + 1) / 64 = i / 64 := by omega
      have h3 : (i + 1) % 64 = i % 64 + 1 := by omega
      rw [scanCount, ih, h2, h3]
      simp only [bitAt, bitCount]
      omega

theorem scanCount_true_add_false (ws : List Nat) : ∀ i : Nat,
    scanCount ws true i + scanCount ws false i = i
  | 0 => rfl
  | i + 1 => by
    have ih := scanCount_true_add_false ws i
    simp only [scanCount]
    cases h : bitAt ws i <;> simp [h] <;> omega

theorem getD_mem {ws : List Nat} {q : Nat} (h : q < ws.length) : ws.getD q 0 ∈ ws := by
  rw [List.getD_eq_getElem?_getD, List.getElem?_eq_getElem h]
  exact List.getElem_mem h

/-- The `Rank1` of the Simple draft is the linear-scan count of ones. -/
theorem Simple.Rank1_exact {size : Nat} {ws : List Nat} (hlen : ws.length = size / 64 + 1)
    (hw : ∀ w ∈ ws, w < 2 ^ 64) {i : Nat} (hi : i ≤ size) :
    Simple.Rank1 (Simple.Build ⟨size, ws⟩) i = .ok (scanCount ws true i) := by
  have hq : i / 64 < ws.length := by
    have h1 : i / 64 ≤ size / 64 := Nat.div_le_div_right hi
    omega
  simp only [Simple.Rank1, Simple.Build]
  rw [if_neg (by omega)]
  congr 1
  have hmask : comp64 (w64 (maskFF <<< (i % 64))) = 2 ^ (i % 64) - 1 :=
    mask_low_bits (Nat.mod_lt _ (by omega))
  rw [hmask, Nat.and_pow_two_sub_one_eq_mod]
  have hwq : ws.getD (i / 64) 0 < 2 ^ 64 := hw _ (getD_mem hq)
  have hmlt : ws.getD (i / 64) 0 % 2 ^ (i % 64) < 2 ^ (i % 64) :=
    Nat.mod_lt _ (Nat.two_pow_pos _)
  have hpc : popcount (ws.getD (i / 64) 0 % 2 ^ (i % 64))
      = bitCount (ws.getD (i / 64) 0) (i % 64) := by
    rw [popcount_spec (by
        have h1 : (2 : Nat) ^ (i % 64) ≤ 2 ^ 64 := Nat.pow_le_pow_right (by omega) (by omega)
        omega),
      bitCount_of_lt hmlt (by omega), bitCount_mod_two_pow]
  rw [hpc]
  have hrk : (Simple.ranksFrom 0 ws).getD (i / 64) 0
      = ((ws.take (i / 64)).map popcount).sum := by
    rw [ranksFrom_getD 0 (i / 64) ws hq]
    omega
  rw [hrk]
  have hmap : (ws.take (i / 64)).map popcount = (ws.take (i / 64)).map (fun w => bitCount w 64) := by
    apply List.map_congr_left
    intro a ha
    exact popcount_spec (hw a (List.mem_of_mem_take ha))
  rw [hmap, scanCount_decomp ws i]

/-- The `Rank` of the Simple draft is the linear-scan count of the requested bit. -/
theorem Simple.Rank_exact {size : Nat} {ws : List Nat} (hlen : ws.length = size / 64 + 1)
    (hw : ∀ w ∈ ws, w < 2 ^ 64) {i : Nat} (hi : i ≤ size) (x : Bool) :
    Simple.Rank (Simple.Build ⟨size, ws⟩) i x = .ok (scanCount ws x i) := by
  cases x
  · show Simple.Rank0 _ _ = _
    unfold Simple.Rank0
    rw [Simple.Rank1_exact hlen hw hi]
    have := scanCount_true_add_false ws i
    simp only []
    congr 1
    omega
  · exact Simple.Rank1_exact hlen hw hi

/-- The binary search of the Simple draft fails exactly when `t` exceeds
(strictly) the true total count; at `t` equal to the total it still
succeeds. -/
theorem Simple.binarySearch_error_iff {size : Nat} {ws : List Nat}
    (hlen : ws.length = size / 64 + 1) (hw : ∀ w ∈ ws, w < 2 ^ 64) (t : Nat) (x : Bool) :
    Simple.binarySearch (Simple.Build ⟨size, ws⟩) t x
      = if t > scanCount ws x size then .error .notExist
        else .ok (Simple.searchLoop (Simple.Build ⟨size, ws⟩) t x 0 (size + 1) - 1) := by
  have hsz : (Simple.Build ⟨size, ws⟩).size = size := rfl
  unfold Simple.binarySearch
  rw [hsz]
  have htot : (if x then Simple.Rank1 (Simple.Build ⟨size, ws⟩) size
      else Simple.Rank0 (Simple.Build ⟨size, ws⟩) size) = .ok (scanCount ws x size) := by
    cases x
    · have := Simple.Rank_exact hlen hw (Nat.le_refl size) false
      simpa [Simple.Rank] using this
    · have := Simple.Rank_exact hlen hw (Nat.le_refl size) true
      simpa [Simple.Rank] using this
  rw [htot]
  rfl

theorem Simple.Select_error_iff {size : Nat} {ws : List Nat}
    (hlen : ws.length = size / 64 + 1) (hw : ∀ w ∈ ws, w < 2 ^ 64) (t : Nat) (x : Bool) :
    (Simple.Select (Simple.Build ⟨size, ws⟩) t x = .error .notExist
      ↔ t > scanCount ws x size)
    ∧ (t ≤ scanCount ws x size →
        ∃ p, Simple.Select (Simple.Build ⟨size, ws⟩) t x = .ok p) := by
  have hsel : Simple.Select (Simple.Build ⟨size, ws⟩) t x
      = Simple.binarySearch (Simple.Build ⟨size, ws⟩) t x := by
    cases x <;> rfl
  rw [hsel, Simple.binarySearch_error_iff hlen hw t x]
  by_cases ht : t > scanCount ws x size
  · simp [ht]
  · simp [ht]

/-! ### In-bounds access for the Log2 draft (safety) -/

theorem buildLogLoop_ge : ∀ (size l : Nat), l ≤ Log2.buildLogLoop size l := by
  intro size
  suffices H : ∀ d l, size - l ≤ d → l ≤ Log2.buildLogLoop size l by
    intro l
    exact H (size - l) l (Nat.le_refl _)
  intro d
  induction d with
  | zero =>
    intro l hle
    rw [Log2.buildLogLoop]
    by_cases hc : 1 <<< l ≤ size
    · exfalso
      have hl : l < 1 <<< l := by
        rw [Nat.one_shiftLeft]; exact Nat.lt_two_pow l
      omega
    · rw [if_neg hc]
  | succ d ih =>
    intro l hle
    rw [Log2.buildLogLoop]
    by_cases hc : 1 <<< l ≤ size
    · rw [if_pos hc]
      have hl : l < 1 <<< l := by
        rw [Nat.one_shiftLeft]; exact Nat.lt_two_pow l
      have := ih (l + 1) (by omega)
      omega
    · rw [if_neg hc]

theorem ranksLoop_length (v : List Nat) (lsq n : Nat) :
    ∀ (i count : Nat), (Log2.ranksLoop v lsq n i count).length = n - i := by
  suffices H : ∀ d i count, n - i ≤ d → (Log2.ranksLoop v lsq n i count).length = n - i by
    intro i count
    exact H (n - i) i count (Nat.le_refl _)
  intro d
  induction d with
  | zero =>
    intro i count hle
    rw [Log2.ranksLoop, if_neg (by omega)]
    simp
    omega
  | succ d ih =>
    intro i count hle
    rw [Log2.ranksLoop]
    by_cases hc : i < n
    · rw [if_pos hc]
      by_cases he : i = n - 1
      · rw [if_pos he, List.length_cons, ih (i + 1) count (by omega)]
        omega
      · rw [if_neg he, List.length_cons, ih (i + 1) _ (by omega)]
        omega
    · rw [if_neg hc]
      simp
      omega

theorem rankLoop_snd_lt (v : List Nat) (i : Nat) :
    ∀ (ret beg : Nat), beg < i → (Log2.rankLoop v i ret beg).2 < i := by
  suffices H : ∀ d ret beg, i - beg ≤ d → beg < i → (Log2.rankLoop v i ret beg).2 < i by
    intro ret beg h
    exact H (i - beg) ret beg (Nat.le_refl _) h
  intro d
  induction d with
  | zero =>
    intro ret beg hle h
    omega
  | succ d ih =>
    intro ret beg hle h
    rw [Log2.rankLoop]
    by_cases hc : beg + 64 < i
    · rw [if_pos hc]
      exact ih _ _ (by omega) (by omega)
    · rw [if_neg hc]
      exact h

theorem rankLoopChk_eq (v : List Nat) (i : Nat) (hacc : ∀ b : Nat, b + 64 < i → b / 64 < v.length) :
    ∀ (ret beg : Nat), Log2.rankLoopChk v i ret beg = some (Log2.rankLoop v i ret beg) := by
  suffices H : ∀ d ret beg, i - beg ≤ d →
      Log2.rankLoopChk v i ret beg = some (Log2.rankLoop v i ret beg) by
    intro ret beg
    exact H (i - beg) ret beg (Nat.le_refl _)
  intro d
  induction d with
  | zero =>
    intro ret beg hle
    rw [Log2.rankLoopChk, Log2.rankLoop, if_neg (by omega), if_neg (by omega)]
  | succ d ih =>
    intro ret beg hle
    rw [Log2.rankLoopChk, Log2.rankLoop]
    by_cases hc : beg + 64 < i
    · rw [if_pos hc, if_pos hc, if_pos (hacc beg hc)]
      exact ih _ _ (by omega)
    · rw [if_neg hc, if_neg hc]

theorem rank1ValChk_eq (bv : Log2.BitVector) (size i : Nat)
    (hranklen : bv.rank.length = size / bv.logSquared + 1)
    (hvlen : bv.v.length = size / 64 + 1)
    (hi : i ≤ size) :
    Log2.rank1ValChk bv i = some (Log2.rank1Val bv i) := by
  have hrk : i / bv.logSquared < bv.rank.length := by
    have h1 : i / bv.logSquared ≤ size / bv.logSquared := Nat.div_le_div_right hi
    omega
  have hword : ∀ b : Nat, b ≤ size → b / 64 < bv.v.length := by
    intro b hb
    have h1 : b / 64 ≤ size / 64 := Nat.div_le_div_right hb
    omega
  unfold Log2.rank1ValChk Log2.rank1Val
  rw [if_pos hrk]
  by_cases hbr : ((i / bv.logSquared * bv.logSquared) / 64) * 64 ≤ i / bv.logSquared * bv.logSquared
      ∧ i ≤ ((i / bv.logSquared * bv.logSquared) / 64 + 1) * 64
  · rw [if_pos hbr, if_pos hbr]
    have hbeg : i / bv.logSquared * bv.logSquared ≤ size := by
      have h1 : i / bv.logSquared * bv.logSquared ≤ i := Nat.div_mul_le_self i _
      omega
    rw [if_pos (hword _ hbeg)]
  · rw [if_neg hbr, if_neg hbr]
    have hphase : ((i / bv.logSquared * bv.logSquared) / 64 + 1) * 64
        - i / bv.logSquared * bv.logSquared > 0 := by
      have h1 : (i / bv.logSquared * bv.logSquared) / 64 * 64 ≤ i / bv.logSquared * bv.logSquared :=
        Nat.div_mul_le_self _ _
      omega
    rw [if_pos hphase, if_pos hphase]
    have hbeg : i / bv.logSquared * bv.logSquared ≤ size := by
      have h1 : i / bv.logSquared * bv.logSquared ≤ i := Nat.div_mul_le_self i _
      omega
    rw [if_pos (hword _ hbeg)]
    rw [Option.some_bind]
    -- the word-aligned entry point of the loop is below i
    have hentry : ((i / bv.logSquared * bv.logSquared) / 64 + 1) * 64 < i := by
      have h1 : (i / bv.logSquared * bv.logSquared) / 64 * 64 ≤ i / bv.logSquared * bv.logSquared :=
        Nat.div_mul_le_self _ _
      omega
    have hacc : ∀ b : Nat, b + 64 < i → b / 64 < bv.v.length := by
      intro b hb
      exact hword b (by omega)
    rw [rankLoopChk_eq bv.v i hacc, Option.some_bind]
    have key : ∀ p : Nat × Nat, p.2 < i →
        (if p.2 / 64 < bv.v.length then
          some (p.1 + popcount (bv.v.getD (p.2 / 64) 0 &&& comp64 (w64 (maskFF <<< (i % 64)))))
        else none)
        = some (p.1 + popcount (bv.v.getD (p.2 / 64) 0 &&& comp64 (w64 (maskFF <<< (i % 64))))) := by
      intro p hp
      rw [if_pos (hword _ (by omega))]
    exact key _ (rankLoop_snd_lt bv.v i _ _ (by omega))

theorem Log2.Build_bounds_check (size : Nat) (ws : List Nat) (hlen : ws.length = size / 64 + 1)
    (i : Nat) (hi : i ≤ size) :
    Log2.GetChk (Log2.Build ⟨size, ws⟩) i = some (Log2.Get (Log2.Build ⟨size, ws⟩) i) ∧
    Log2.Rank1Chk (Log2.Build ⟨size, ws⟩) i = some (Log2.Rank1 (Log2.Build ⟨size, ws⟩) i) := by
  have hsz : (Log2.Build ⟨size, ws⟩).size = size := rfl
  have hv : (Log2.Build ⟨size, ws⟩).v = ws := rfl
  have hrnk : (Log2.Build ⟨size, ws⟩).rank
      = Log2.ranksLoop ws ((Log2.Build ⟨size, ws⟩).logSquared)
          (size / (Log2.Build ⟨size, ws⟩).logSquared + 1) 0 0 := rfl
  have hq : i / 64 < size / 64 + 1 := by
    have h1 : i / 64 ≤ size / 64 := Nat.div_le_div_right hi
    omega
  constructor
  · unfold Log2.GetChk Log2.Get
    rw [hsz, hv, hlen]
    rw [if_neg (show ¬ i > size by omega)]
    rw [if_pos hq]
    rw [if_neg (show ¬ i > size by omega)]
  · unfold Log2.Rank1Chk Log2.Rank1
    rw [hsz]
    rw [if_neg (show ¬ i > size by omega)]
    rw [if_neg (show ¬ i > size by omega)]
    rw [rank1ValChk_eq (Log2.Build ⟨size, ws⟩) size i
        (by rw [hrnk, ranksLoop_length, Nat.sub_zero])
        (by rw [hv, hlen]) hi]
    rfl

/-! ### The claims -/

/-- C1: the specification says `Rank1(i)` returns the linear-scan count of
ones in `[0, i)` for every vector built with in-range `Set` calls.  The
`src/bitvector.go` implementation (namespace `Log2`) violates this: for a
256-bit vector with only bit 0 set, `Rank1(70)` returns 0 although the scan
count over `[0, 70)` is 1 (the mask `^(maskFF >> (offset % 64))` vanishes
when `offset = 64`, so the word holding bits `[0, 64)` is skipped). -/
theorem c1_log2_rank1_not_scan_count :
    Log2.Rank1 (Log2.Build ((NewBuilder 256).Set 0 true)) 70 = .ok 0 ∧
    scanCount ((NewBuilder 256).Set 0 true).v true 70 = 1 := by
  constructor
  · simp [Log2.Rank1, Log2.rank1Val, Log2.rankLoop, Log2.Build, Log2.buildLogLoop,
      Log2.ranksLoop, Log2.blockCount, NewBuilder, Builder.Set, popcount, w64, comp64,
      maskFF, mask55, mask33, mask0F, mask01, List.replicate]
  · decide

/-- C2: the specification says `Rank0(i) = i - Rank1(i)`.  In
`src/bitVector.go` (namespace `CapV`) `Rank0` returns the `Rank1` value
itself: on a 1-bit vector with its only bit set, `Rank0(1)` returns 1
although `i - Rank1(i) = 0`. -/
theorem c2_capv_rank0_not_complement :
    CapV.Rank0 (CapV.Build ((NewBuilder 1).Set 0 true)) 1 = .ok 1 ∧
    CapV.Rank1 (CapV.Build ((NewBuilder 1).Set 0 true)) 1 = .ok 1 := ⟨rfl, rfl⟩

/-- C3 counterexample: the claim says `Get(size)` fails with `OutOfRange`;
in every draft the bounds check only rejects `i > size`, so `Get(size)`
succeeds (it reads the zero-initialised padding word). -/
theorem c3_counterexample_get_size_succeeds :
    Simple.Get (Simple.Build ((NewBuilder 1).Set 0 true)) 1 = .ok false := rfl

/-- C3 (amended): `Get(i)` fails with `OutOfRange` exactly when `i > size`;
`Get(size)` succeeds, `Get(size+1)` fails, and `Get(size-1)` succeeds.  The
`Get` code is textually identical in `src/bitVector.go` (`CapV`),
`src/bitvector.go` (`Log2`) and the other drafts. -/
theorem c3_get_bound_amended (size : Nat) (ws : List Nat)
    (hlen : ws.length = size / 64 + 1) :
    (∀ i, (∃ e, CapV.Get (CapV.Build ⟨size, ws⟩) i = .error e) ↔ i > size) ∧
    (∀ i, (∃ e, Log2.Get (Log2.Build ⟨size, ws⟩) i = .error e) ↔ i > size) ∧
    (∃ b, Log2.Get (Log2.Build ⟨size, ws⟩) size = .ok b) ∧
    Log2.Get (Log2.Build ⟨size, ws⟩) (size + 1) = .error .outOfRange ∧
    (1 ≤ size → ∃ b, Log2.Get (Log2.Build ⟨size, ws⟩) (size - 1) = .ok b) := by
  refine ⟨?_, ?_, ?_, ?_, ?_⟩
  · intro i
    by_cases h : i > size <;> simp [CapV.Get, CapV.Build, h]
  · intro i
    by_cases h : i > size <;> simp [Log2.Get, Log2.Build, h]
  · simp [Log2.Get, Log2.Build]
  · simp [Log2.Get, Log2.Build]
  · intro h
    have hlt : ¬ size - 1 > size := by omega
    simp [Log2.Get, Log2.Build, hlt]

theorem c3_get_bound_amended_witness :
    (∃ b, Log2.Get (Log2.Build ⟨1, [1]⟩) 1 = .ok b) ∧
    Log2.Get (Log2.Build ⟨1, [1]⟩) 2 = .error .outOfRange := by
  refine ⟨(c3_get_bound_amended 1 [1] (by decide)).2.2.1,
    (c3_get_bound_amended 1 [1] (by decide)).2.2.2.1⟩

/-- C4 counterexample: the claim says `Select(t, bit)` fails with `NotExist`
already at `t` equal to the total count.  On a 2-bit vector with one set
bit (total = 1), `Select(1, true)` succeeds and returns 2 (= size): the
precondition check in `binarySearch` only rejects `t > total`. -/
theorem c4_counterexample_select_at_total_succeeds :
    Simple.Select (Simple.Build ((NewBuilder 2).Set 0 true)) 1 true = .ok 2 ∧
    scanCount ((NewBuilder 2).Set 0 true).v true 2 = 1 := by
  constructor
  · simp [Simple.Select, Simple.Select1, Simple.binarySearch, Simple.searchLoop,
      Simple.orZero, Simple.Rank1, Simple.Rank0, Simple.Build, Simple.ranksFrom,
      NewBuilder, Builder.Set, popcount, w64, comp64, maskFF, mask55, mask33,
      mask0F, mask01, List.replicate]
  · decide

/-- C4 (amended): for every constructed vector of the `Simple` draft
(src/unnamed/part_001), `Select(t, bit)` fails, with `NotExist`, exactly
when `t` strictly exceeds the total count of the requested bit value; at
`t` equal to the total it still succeeds.  The failure is decided by the
precondition check before the binary search. -/
theorem c4_select_notexist_iff (size : Nat) (ws : List Nat)
    (hlen : ws.length = size / 64 + 1) (hw : ∀ w ∈ ws, w < 2 ^ 64) (t : Nat) (x : Bool) :
    (Simple.Select (Simple.Build ⟨size, ws⟩) t x = .error .notExist
      ↔ t > scanCount ws x size)
    ∧ (t ≤ scanCount ws x size →
        ∃ p, Simple.Select (Simple.Build ⟨size, ws⟩) t x = .ok p) :=
  Simple.Select_error_iff hlen hw t x

theorem c4_select_notexist_iff_witness :
    2 > scanCount [1] true 1 ∧
    Simple.Select (Simple.Build ⟨1, [1]⟩) 2 true = .error .notExist := by
  refine ⟨by decide, ?_⟩
  exact (c4_select_notexist_iff 1 [1] (by decide) (by decide) 2 true).1.mpr (by decide)

set_option maxRecDepth 4096 in
/-- C5: the specification says `Select(t, bit)` returns a position `p` with
`Rank(p, bit) = t` and `Get(p) = bit` for every valid `t`.  In
`src/bitvector.go` (namespace `Log2`) this fails: for a 256-bit vector with
only bit 0 set, `t = 0` is valid (total = 1), yet `Select1(0)` returns 256
and `Get(256)` is `false`, not `true` (consequence of the `Rank1` bug of
C1, which makes the rank seen by the binary search vanish). -/
theorem c5_log2_select_rank_inverse_fails :
    Log2.Select1 (Log2.Build ((NewBuilder 256).Set 0 true)) 0 = .ok 256 ∧
    Log2.Get (Log2.Build ((NewBuilder 256).Set 0 true)) 256 = .ok false ∧
    scanCount ((NewBuilder 256).Set 0 true).v true 256 = 1 := by
  refine ⟨?_, ?_, ?_⟩
  · simp [Log2.Select1, Log2.binarySearch, Log2.searchLoop, Log2.orZero, Log2.Rank1,
      Log2.rank1Val, Log2.rankLoop, Log2.Build, Log2.buildLogLoop, Log2.ranksLoop,
      Log2.blockCount, NewBuilder, Builder.Set, popcount, w64, comp64, maskFF,
      mask55, mask33, mask0F, mask01, List.replicate]
  · simp [Log2.Get, Log2.Build, Log2.buildLogLoop, Log2.ranksLoop, Log2.blockCount,
      Log2.rankLoop, NewBuilder, Builder.Set, popcount, w64, comp64, maskFF,
      mask55, mask33, mask0F, mask01, List.replicate]
  · decide

/-- C6: the specification says `rank[k]` equals the exact prefix popcount
before block `k`.  In `src/bitvector.go` (namespace `Log2`), for a 256-bit
vector with only bit 0 set (block size 81), `Build` produces the rank table
`[0, 0, 0, 0]`, although the true count before block 1 (bit positions
`[0, 81)`) is 1: the block-count code skips word 0 when the block start is
word-aligned. -/
theorem c6_log2_build_rank_index_wrong :
    (Log2.Build ((NewBuilder 256).Set 0 true)).rank = [0, 0, 0, 0] ∧
    (Log2.Build ((NewBuilder 256).Set 0 true)).logSquared = 81 ∧
    scanCount ((NewBuilder 256).Set 0 true).v true 81 = 1 := by
  refine ⟨?_, ?_, ?_⟩
  · simp [Log2.Build, Log2.buildLogLoop, Log2.ranksLoop, Log2.blockCount, Log2.rankLoop,
      NewBuilder, Builder.Set, popcount, w64, comp64, maskFF, mask55, mask33,
      mask0F, mask01, List.replicate]
  · simp [Log2.Build, Log2.buildLogLoop, NewBuilder, Builder.Set, List.replicate]
  · decide

/-- C7: the specification says `Builder.Get(i)` reads the current value of
bit `i`, so after `Set(i, true)` it must return `true`.  Every draft
implements it as `(v[i/64] << (i%64)) & 1 == 1` — a left shift instead of a
right shift — so after `NewBuilder(2).Set(1, true)`, `Get(1)` returns
`false` although bit 1 of the word is set. -/
theorem c7_builder_get_wrong :
    ((NewBuilder 2).Set 1 true).Get 1 = false ∧
    Nat.testBit (((NewBuilder 2).Set 1 true).v.getD 0 0) 1 = true := by decide

/-- C8: `popcount` returns the exact number of set bits (`bitCount · 64`,
the linear-scan specification) for every 64-bit word; `popcount 0 = 0`,
`popcount` of the all-ones word is 64, and `popcount` is invariant under
every cyclic rotation of its input. -/
theorem c8_popcount_correct (x r : Nat) (hx : x < 2 ^ 64) :
    popcount x = bitCount x 64 ∧ popcount 0 = 0 ∧ popcount maskFF = 64 ∧
    popcount (rotl64 x r) = popcount x := by
  refine ⟨popcount_spec hx, popcount_zero, popcount_maskFF, ?_⟩
  rw [popcount_spec (rotl64_lt hx r), popcount_spec hx, bitCount_rotl64 hx r]

theorem c8_popcount_correct_witness :
    (37 : Nat) < 2 ^ 64 ∧
    (popcount 37 = bitCount 37 64 ∧ popcount 0 = 0 ∧ popcount maskFF = 64 ∧
      popcount (rotl64 37 5) = popcount 37) :=
  ⟨by decide, c8_popcount_correct 37 5 (by decide)⟩

/-- C9: the specification says `Rank1` is non-decreasing in its argument.
In `src/bitvector.go` (namespace `Log2`), for a 256-bit vector with only
bit 0 set, `Rank1(64) = 1` but `Rank1(70) = 0`: monotonicity fails
(consequence of the `Rank1` masking bug of C1). -/
theorem c9_log2_rank1_not_monotone :
    Log2.Rank1 (Log2.Build ((NewBuilder 256).Set 0 true)) 64 = .ok 1 ∧
    Log2.Rank1 (Log2.Build ((NewBuilder 256).Set 0 true)) 70 = .ok 0 := by
  constructor <;>
    simp [Log2.Rank1, Log2.rank1Val, Log2.rankLoop, Log2.Build, Log2.buildLogLoop,
      Log2.ranksLoop, Log2.blockCount, NewBuilder, Builder.Set, popcount, w64, comp64,
      maskFF, mask55, mask33, mask0F, mask01, List.replicate]

/-- C10: for every vector built from a builder of declared size (word
storage of `size/64 + 1` words) and every `i ≤ size`, `Get(i)` and
`Rank1(i)` of `src/bitvector.go` (namespace `Log2`) touch only in-bounds
indices of the word array and the rank array: the checked variants, in
which every slice access is guarded, return `some` of the unchecked
results, so neither operation can panic. -/
theorem c10_get_rank1_in_bounds (size : Nat) (ws : List Nat)
    (hlen : ws.length = size / 64 + 1) (i : Nat) (hi : i ≤ size) :
    Log2.GetChk (Log2.Build ⟨size, ws⟩) i = some (Log2.Get (Log2.Build ⟨size, ws⟩) i) ∧
    Log2.Rank1Chk (Log2.Build ⟨size, ws⟩) i = some (Log2.Rank1 (Log2.Build ⟨size, ws⟩) i) :=
  Log2.Build_bounds_check size ws hlen i hi

theorem c10_get_rank1_in_bounds_witness :
    (List.replicate 3 0).length = 130 / 64 + 1 ∧ 70 ≤ 130 ∧
    (Log2.GetChk (Log2.Build ⟨130, List.replicate 3 0⟩) 70
        = some (Log2.Get (Log2.Build ⟨130, List.replicate 3 0⟩) 70) ∧
      Log2.Rank1Chk (Log2.Build ⟨130, List.replicate 3 0⟩) 70
        = some (Log2.Rank1 (Log2.Build ⟨130, List.replicate 3 0⟩) 70)) :=
  ⟨by decide, by decide, c10_get_rank1_in_bounds 130 (List.replicate 3 0) (by decide) 70 (by decide)⟩
